import Mathlib

/-!
Verification of the core recordings-downloader pipeline
(`download_zoom_recordings.py`): a shallow Lean embedding of its
date-window planner (`month_windows`), filename sanitizer (`sanitize`),
unique-path resolver (`next_unique_path`), streaming retriever
(`download`), cursor paginator (`list_records`) and orchestrator
(`main`), together with theorems checking the specification's claims
against that embedding.
-/

namespace Zoom

/-- Calendar date `{year, month, day}`, embedding Python `datetime.date`
(which compares as the lexicographic triple `(year, month, day)`). -/
structure Date where
  year : Nat
  month : Nat
  day : Nat
  deriving DecidableEq

/-- Gregorian leap-year test, as used by Python's `datetime` module. -/
def isLeap (y : Nat) : Bool :=
  decide (y % 4 = 0) && (decide (y % 100 ≠ 0) || decide (y % 400 = 0))

/-- Number of days in month `m` of year `y` (Python `calendar.monthrange`). -/
def daysInMonth (y m : Nat) : Nat :=
  if m = 2 then (if isLeap y then 29 else 28)
  else if m = 4 ∨ m = 6 ∨ m = 9 ∨ m = 11 then 30
  else 31

/-- A well-formed Python date: year ≥ 1, month in `1..12`, day in range. -/
def Date.valid (d : Date) : Prop :=
  1 ≤ d.year ∧ 1 ≤ d.month ∧ d.month ≤ 12 ∧ 1 ≤ d.day ∧ d.day ≤ daysInMonth d.year d.month

instance (d : Date) : Decidable d.valid := by
  unfold Date.valid; infer_instance

/-- Strict order on dates: Python's tuple comparison `<`. -/
def dateLt (a b : Date) : Bool :=
  decide (a.year < b.year) ||
    (decide (a.year = b.year) &&
      (decide (a.month < b.month) ||
        (decide (a.month = b.month) && decide (a.day < b.day))))

/-- Non-strict order on dates: Python's tuple comparison `<=`. -/
def dateLe (a b : Date) : Bool :=
  dateLt a b || decide (a = b)

/-- Python `min` on two dates: returns the second iff it is strictly smaller. -/
def dateMin (a b : Date) : Date :=
  if dateLt b a then b else a

/-- The day after `d` (Python `d + timedelta(days=1)`). -/
def succDay (d : Date) : Date :=
  if d.day < daysInMonth d.year d.month then ⟨d.year, d.month, d.day + 1⟩
  else if d.month < 12 then ⟨d.year, d.month + 1, 1⟩
  else ⟨d.year + 1, 1, 1⟩

/-- The day before `d` (Python `d - timedelta(days=1)`). -/
def predDay (d : Date) : Date :=
  if 1 < d.day then ⟨d.year, d.month, d.day - 1⟩
  else if 1 < d.month then ⟨d.year, d.month - 1, daysInMonth d.year (d.month - 1)⟩
  else ⟨d.year - 1, 12, 31⟩

/-- `d + timedelta(days=n)`: `n`-fold successor day. -/
def addDays (d : Date) : Nat → Date
  | 0 => d
  | n + 1 => addDays (succDay d) n

/-- Source `first_of_month`: `d.replace(day=1)`. -/
def first_of_month (d : Date) : Date :=
  ⟨d.year, d.month, 1⟩

/-- Source `add_month`: `(d.replace(day=28) + timedelta(days=4)).replace(day=1)`
(the "portable trick" for the first day of the next month). -/
def add_month (d : Date) : Date :=
  let x := addDays ⟨d.year, d.month, 28⟩ 4
  ⟨x.year, x.month, 1⟩

/-- Months from `a`'s month to `b`'s month, inclusive (0 when `a`'s month is
later). This is the exact number of iterations of the `month_windows` loop,
used as fuel for the embedded loop. -/
def monthsBetween (a b : Date) : Nat :=
  12 * b.year + b.month + 1 - (12 * a.year + a.month)

/-- The loop body of source `month_windows`: while `cur <= end_d`, yield
`(cur, min(end_d, add_month(cur) - 1 day))` and advance `cur` by one month.
The fuel argument bounds the number of iterations; `month_windows` supplies
exactly the number the loop performs. -/
def mwGo : Nat → Date → Date → List (Date × Date)
  | 0, _, _ => []
  | n + 1, cur, e =>
    if dateLe cur e then
      let nf := add_month cur
      (cur, dateMin e (predDay nf)) :: mwGo n nf e
    else []

/-- Source `month_windows(start_d, end_d)`: the list of `(from, to)` windows
the script queries. The source yields ISO strings of these dates; the
embedding keeps the dates themselves (ISO formatting is injective and
order-preserving). -/
def month_windows (s e : Date) : List (Date × Date) :=
  mwGo (monthsBetween (first_of_month s) e) (first_of_month s) e

/-! ### Order lemmas for dates -/

theorem dateLt_iff (a b : Date) :
    dateLt a b = true ↔
      (a.year < b.year ∨ (a.year = b.year ∧
        (a.month < b.month ∨ (a.month = b.month ∧ a.day < b.day)))) := by
  simp [dateLt, Bool.or_eq_true, Bool.and_eq_true, decide_eq_true_eq]

theorem date_ext_iff (a b : Date) :
    a = b ↔ (a.year = b.year ∧ a.month = b.month ∧ a.day = b.day) := by
  constructor
  · intro h; cases h; exact ⟨rfl, rfl, rfl⟩
  · intro ⟨h1, h2, h3⟩; cases a; cases b; simp_all

theorem dateLe_iff (a b : Date) :
    dateLe a b = true ↔
      (a.year < b.year ∨ (a.year = b.year ∧
        (a.month < b.month ∨ (a.month = b.month ∧ a.day ≤ b.day)))) := by
  simp only [dateLe, Bool.or_eq_true, decide_eq_true_eq, dateLt_iff, date_ext_iff]
  omega

theorem daysInMonth_bounds (y m : Nat) :
    28 ≤ daysInMonth y m ∧ daysInMonth y m ≤ 31 := by
  unfold daysInMonth
  split
  · split <;> omega
  · split <;> omega

/-! ### Calendar-arithmetic lemmas -/

theorem succDay_small (y m k : Nat) (h : k < daysInMonth y m) :
    succDay ⟨y, m, k⟩ = ⟨y, m, k + 1⟩ := by
  unfold succDay; simp [h]

theorem daysInMonth_twelve (y : Nat) : daysInMonth y 12 = 31 := by
  simp [daysInMonth]

/-- `add_month` really computes the first day of the next month. -/
theorem add_month_eq (y m d : Nat) (h2 : m ≤ 12) :
    add_month ⟨y, m, d⟩ =
      if m < 12 then ⟨y, m + 1, 1⟩ else ⟨y + 1, 1, 1⟩ := by
  obtain ⟨hb1, hb2⟩ := daysInMonth_bounds y m
  by_cases hm : m < 12
  · have hn1 : 1 < daysInMonth y (m + 1) := by
      have := (daysInMonth_bounds y (m + 1)).1; omega
    have hn2 : 2 < daysInMonth y (m + 1) := by
      have := (daysInMonth_bounds y (m + 1)).1; omega
    have hn3 : 3 < daysInMonth y (m + 1) := by
      have := (daysInMonth_bounds y (m + 1)).1; omega
    have hD : daysInMonth y m = 28 ∨ daysInMonth y m = 29 ∨
        daysInMonth y m = 30 ∨ daysInMonth y m = 31 := by omega
    rcases hD with hD | hD | hD | hD
    · have s1 : succDay ⟨y, m, 28⟩ = ⟨y, m + 1, 1⟩ := by
        unfold succDay; rw [hD]; simp [hm]
      simp [add_month, addDays, s1, succDay_small, hn1, hn2, hn3, hm]
    · have s1 : succDay ⟨y, m, 28⟩ = ⟨y, m, 29⟩ := succDay_small y m 28 (by omega)
      have s2 : succDay ⟨y, m, 29⟩ = ⟨y, m + 1, 1⟩ := by
        unfold succDay; rw [hD]; simp [hm]
      simp [add_month, addDays, s1, s2, succDay_small, hn1, hn2, hm]
    · have s1 : succDay ⟨y, m, 28⟩ = ⟨y, m, 29⟩ := succDay_small y m 28 (by omega)
      have s2 : succDay ⟨y, m, 29⟩ = ⟨y, m, 30⟩ := succDay_small y m 29 (by omega)
      have s3 : succDay ⟨y, m, 30⟩ = ⟨y, m + 1, 1⟩ := by
        unfold succDay; rw [hD]; simp [hm]
      simp [add_month, addDays, s1, s2, s3, succDay_small, hn1, hm]
    · have s1 : succDay ⟨y, m, 28⟩ = ⟨y, m, 29⟩ := succDay_small y m 28 (by omega)
      have s2 : succDay ⟨y, m, 29⟩ = ⟨y, m, 30⟩ := succDay_small y m 29 (by omega)
      have s3 : succDay ⟨y, m, 30⟩ = ⟨y, m, 31⟩ := succDay_small y m 30 (by omega)
      have s4 : succDay ⟨y, m, 31⟩ = ⟨y, m + 1, 1⟩ := by
        unfold succDay; rw [hD]; simp [hm]
      simp [add_month, addDays, s1, s2, s3, s4, hm]
  · have hm12 : m = 12 := by omega
    subst hm12
    have hD : daysInMonth y 12 = 31 := daysInMonth_twelve y
    have s1 : succDay ⟨y, 12, 28⟩ = ⟨y, 12, 29⟩ := succDay_small y 12 28 (by omega)
    have s2 : succDay ⟨y, 12, 29⟩ = ⟨y, 12, 30⟩ := succDay_small y 12 29 (by omega)
    have s3 : succDay ⟨y, 12, 30⟩ = ⟨y, 12, 31⟩ := succDay_small y 12 30 (by omega)
    have s4 : succDay ⟨y, 12, 31⟩ = ⟨y + 1, 1, 1⟩ := by
      unfold succDay; rw [hD]; simp
    simp [add_month, addDays, s1, s2, s3, s4]

/-- The day before the first of month `m + 1` is the last day of month `m`. -/
theorem predDay_first (y m : Nat) (h : 1 ≤ m) :
    predDay ⟨y, m + 1, 1⟩ = ⟨y, m, daysInMonth y m⟩ := by
  unfold predDay
  simp [h]
  omega

/-- The day before January 1st of year `y + 1` is December 31st of year `y`. -/
theorem predDay_jan (y : Nat) :
    predDay ⟨y + 1, 1, 1⟩ = ⟨y, 12, 31⟩ := by
  unfold predDay; simp

/-- Taking the day before the first of a month and then the day after gets
back to the first of the month. -/
theorem succDay_predDay_first (y m : Nat) (hy : 1 ≤ y) (h1 : 1 ≤ m) (h2 : m ≤ 12) :
    succDay (predDay ⟨y, m, 1⟩) = ⟨y, m, 1⟩ := by
  by_cases hm : 1 < m
  · obtain ⟨m', rfl⟩ : ∃ m', m = m' + 1 := ⟨m - 1, by omega⟩
    rw [predDay_first y m' (by omega)]
    unfold succDay
    simp
    omega
  · have hm1 : m = 1 := by omega
    subst hm1
    obtain ⟨y', rfl⟩ : ∃ y', y = y' + 1 := ⟨y - 1, by omega⟩
    rw [predDay_jan y']
    unfold succDay
    rw [daysInMonth_twelve]
    simp

/-- Every date is strictly before its successor day. -/
theorem dateLt_succDay (d : Date) : dateLt d (succDay d) = true := by
  unfold succDay
  split
  · simp [dateLt_iff]
  · split <;> simp [dateLt_iff]

theorem dateLt_of_not_le (a b : Date) (h : dateLe a b = false) : dateLt b a = true := by
  have h' : ¬ (dateLe a b = true) := by simp [h]
  rw [dateLe_iff] at h'
  rw [dateLt_iff]
  rcases Nat.lt_trichotomy a.year b.year with hy | hy | hy
  · exact absurd (Or.inl hy) h'
  · rcases Nat.lt_trichotomy a.month b.month with hm | hm | hm
    · exact absurd (Or.inr ⟨hy, Or.inl hm⟩) h'
    · rcases Nat.lt_trichotomy a.day b.day with hd | hd | hd
      · exact absurd (Or.inr ⟨hy, Or.inr ⟨hm, Nat.le_of_lt hd⟩⟩) h'
      · exact absurd (Or.inr ⟨hy, Or.inr ⟨hm, Nat.le_of_eq hd⟩⟩) h'
      · exact Or.inr ⟨hy.symm, Or.inr ⟨hm.symm, hd⟩⟩
    · exact Or.inr ⟨hy.symm, Or.inl hm⟩
  · exact Or.inl hy

theorem dateLt_trans_le (a b c : Date) (h1 : dateLt a b = true)
    (h2 : dateLe b c = true) : dateLt a c = true := by
  rw [dateLt_iff] at h1 ⊢
  rw [dateLe_iff] at h2
  omega

theorem dateLe_trans' (a b c : Date) (h1 : dateLe a b = true)
    (h2 : dateLe b c = true) : dateLe a c = true := by
  rw [dateLe_iff] at h1 h2 ⊢
  omega

theorem dateLt_asymm' (a b : Date) (h : dateLe a b = true) : dateLt b a = false := by
  rw [dateLe_iff] at h
  by_contra hc
  have hc' : dateLt b a = true := by
    cases hb : dateLt b a
    · exact absurd hb hc
    · rfl
  rw [dateLt_iff] at hc'
  omega

/-- Month index `12*year + month` orders first-of-month dates like the
date order, for any valid partner date. -/
theorem monthIdx_le (y m : Nat) (e : Date) (hm : m ≤ 12)
    (he1 : 1 ≤ e.month) (h : dateLe ⟨y, m, 1⟩ e = true) :
    12 * y + m ≤ 12 * e.year + e.month := by
  rw [dateLe_iff] at h
  simp only at h
  omega

/-- If `e` is a valid date strictly before the first of month `m + 1`, then
`e` is at most the last day of month `m` (of the same year). -/
theorem le_last_of_lt_next_first (e : Date) (y m : Nat) (he : e.valid)
    (h : dateLt e ⟨y, m + 1, 1⟩ = true) :
    dateLe e ⟨y, m, daysInMonth y m⟩ = true := by
  obtain ⟨-, hm1, -, hd1, hd⟩ := he
  rw [dateLt_iff] at h
  simp only at h
  rw [dateLe_iff]
  simp only
  rcases h with hy | ⟨hy, hm⟩
  · omega
  · rcases hm with hm | ⟨hm, hdlt⟩
    · have hm' : e.month < m ∨ e.month = m := by omega
      rcases hm' with hm' | hm'
      · omega
      · right
        refine ⟨hy, Or.inr ⟨hm', ?_⟩⟩
        calc e.day ≤ daysInMonth e.year e.month := hd
        _ = daysInMonth y m := by rw [hy, hm']
    · omega

/-- If `e` is a valid date strictly before January 1st of `y + 1`, then `e`
is at most December 31st of year `y`. -/
theorem le_dec31_of_lt_jan (e : Date) (y : Nat) (he : e.valid)
    (h : dateLt e ⟨y + 1, 1, 1⟩ = true) :
    dateLe e ⟨y, 12, 31⟩ = true := by
  obtain ⟨-, hm1, hm12, hd1, hd⟩ := he
  rw [dateLt_iff] at h
  simp only at h
  rw [dateLe_iff]
  simp only
  have hdim := (daysInMonth_bounds e.year e.month).2
  omega

/-- `mwGo` returns `[]` as soon as the cursor has passed the end date,
whatever fuel remains. -/
theorem mwGo_nil (n : Nat) (cur e : Date) (h : dateLe cur e = false) :
    mwGo n cur e = [] := by
  cases n with
  | zero => rfl
  | succ k => simp [mwGo, h]

/-- Specification of the window list produced from cursor `cur`:
nonempty, starts at `cur`, ends exactly at `e`, consecutive windows are
adjacent (the next window starts the day after the previous one ends, and
strictly later), every window is nonempty, and every window but the last is
a full calendar month. -/
def windowChain (cur e : Date) (W : List (Date × Date)) : Prop :=
  (∃ w ws, W = w :: ws ∧ w.1 = cur) ∧
  (∃ w', W.getLast? = some w' ∧ w'.2 = e) ∧
  List.Chain' (fun a b => b.1 = succDay a.2 ∧ dateLt a.2 b.1 = true) W ∧
  (∀ w ∈ W, dateLe w.1 w.2 = true) ∧
  (∀ w ∈ W.dropLast,
    w.1.day = 1 ∧ w.2 = ⟨w.1.year, w.1.month, daysInMonth w.1.year w.1.month⟩)

theorem mwGo_spec (n : Nat) :
    ∀ y m (e : Date), e.valid → 1 ≤ m → m ≤ 12 →
      dateLe ⟨y, m, 1⟩ e = true →
      12 * e.year + e.month + 1 - (12 * y + m) ≤ n →
      windowChain ⟨y, m, 1⟩ e (mwGo n ⟨y, m, 1⟩ e) := by
  induction n with
  | zero =>
    intro y m e he hm1 hm2 hle hn
    exfalso
    have := monthIdx_le y m e hm2 he.2.1 hle
    omega
  | succ n ih =>
    intro y m e he hm1 hm2 hle hn
    have hidx := monthIdx_le y m e hm2 he.2.1 hle
    have hnf : add_month ⟨y, m, 1⟩ =
        if m < 12 then ⟨y, m + 1, 1⟩ else ⟨y + 1, 1, 1⟩ := add_month_eq y m 1 hm2
    -- the last day of month (y, m) and the first day of the next month
    have hsuccL : succDay ⟨y, m, daysInMonth y m⟩ =
        if m < 12 then ⟨y, m + 1, 1⟩ else ⟨y + 1, 1, 1⟩ := by
      unfold succDay
      simp
    have hpred : predDay (if m < 12 then (⟨y, m + 1, 1⟩ : Date) else ⟨y + 1, 1, 1⟩) =
        (⟨y, m, daysInMonth y m⟩ : Date) := by
      by_cases hm : m < 12
      · rw [if_pos hm]
        exact predDay_first y m hm1
      · have hm' : m = 12 := by omega
        subst hm'
        rw [if_neg hm, predDay_jan, daysInMonth_twelve]
    have hcurL : dateLe ⟨y, m, 1⟩ ⟨y, m, daysInMonth y m⟩ = true := by
      rw [dateLe_iff]
      have := (daysInMonth_bounds y m).1
      dsimp only
      omega
    rw [mwGo, if_pos hle]
    dsimp only
    rw [hnf]
    by_cases hrec : dateLe (if m < 12 then (⟨y, m + 1, 1⟩ : Date) else ⟨y + 1, 1, 1⟩) e = true
    · -- not the last window: it is the full month (y, m)
      have hLe : dateLt ⟨y, m, daysInMonth y m⟩ e = true := by
        apply dateLt_trans_le _ _ e _ hrec
        rw [← hsuccL]
        exact dateLt_succDay _
      have hmin : dateMin e (predDay (if m < 12 then (⟨y, m + 1, 1⟩ : Date) else ⟨y + 1, 1, 1⟩)) =
          (⟨y, m, daysInMonth y m⟩ : Date) := by
        rw [hpred]
        unfold dateMin
        rw [hLe]
        simp
      rw [hmin]
      -- apply the induction hypothesis at the next month
      have hih : windowChain (if m < 12 then (⟨y, m + 1, 1⟩ : Date) else ⟨y + 1, 1, 1⟩) e
          (mwGo n (if m < 12 then (⟨y, m + 1, 1⟩ : Date) else ⟨y + 1, 1, 1⟩) e) := by
        by_cases hm : m < 12
        · rw [if_pos hm] at hrec ⊢
          exact ih y (m + 1) e he (by omega) (by omega) hrec (by omega)
        · have hm' : m = 12 := by omega
          subst hm'
          rw [if_neg hm] at hrec ⊢
          exact ih (y + 1) 1 e he (by omega) (by omega) hrec (by omega)
      obtain ⟨⟨w, ws, hW, hw1⟩, ⟨w', hlast, hw'⟩, hchain, hne, hfull⟩ := hih
      rw [hW] at hlast hchain hne hfull ⊢
      refine ⟨⟨_, _, rfl, rfl⟩, ⟨w', ?_, hw'⟩, ?_, ?_, ?_⟩
      · rw [List.getLast?_cons_cons]
        exact hlast
      · rw [List.chain'_cons]
        refine ⟨⟨?_, ?_⟩, hchain⟩
        · rw [hw1, hsuccL]
        · rw [hw1, ← hsuccL]
          exact dateLt_succDay _
      · intro v hv
        rcases List.mem_cons.1 hv with hv | hv
        · rw [hv]
          exact hcurL
        · exact hne v hv
      · intro v hv
        have hdl : ((⟨y, m, 1⟩, (⟨y, m, daysInMonth y m⟩ : Date)) :: w :: ws).dropLast =
            (⟨y, m, 1⟩, (⟨y, m, daysInMonth y m⟩ : Date)) :: (w :: ws).dropLast := rfl
        rw [hdl] at hv
        rcases List.mem_cons.1 hv with hv | hv
        · rw [hv]
          exact ⟨rfl, rfl⟩
        · exact hfull v hv
    · -- the last window: it ends exactly at e
      have hrec' : dateLe (if m < 12 then (⟨y, m + 1, 1⟩ : Date) else ⟨y + 1, 1, 1⟩) e = false := by
        cases hb : dateLe (if m < 12 then (⟨y, m + 1, 1⟩ : Date) else ⟨y + 1, 1, 1⟩) e
        · rfl
        · exact absurd hb hrec
      have helt : dateLt e (if m < 12 then (⟨y, m + 1, 1⟩ : Date) else ⟨y + 1, 1, 1⟩) = true :=
        dateLt_of_not_le _ _ hrec'
      have heL : dateLe e ⟨y, m, daysInMonth y m⟩ = true := by
        by_cases hm : m < 12
        · rw [if_pos hm] at helt
          exact le_last_of_lt_next_first e y m he helt
        · have hm' : m = 12 := by omega
          subst hm'
          rw [if_neg hm] at helt
          rw [daysInMonth_twelve]
          exact le_dec31_of_lt_jan e y he helt
      have hmin : dateMin e (predDay (if m < 12 then (⟨y, m + 1, 1⟩ : Date) else ⟨y + 1, 1, 1⟩)) = e := by
        rw [hpred]
        unfold dateMin
        rw [dateLt_asymm' e _ heL]
        simp
      rw [hmin, mwGo_nil n _ e hrec']
      refine ⟨⟨_, _, rfl, rfl⟩, ⟨(⟨y, m, 1⟩, e), rfl, rfl⟩, List.chain'_singleton _, ?_, ?_⟩
      · intro v hv
        rcases List.mem_cons.1 hv with hv | hv
        · rw [hv]
          exact hle
        · simp at hv
      · intro v hv
        simp [List.dropLast_single] at hv

/-- The first day of the month containing a valid date is at most that date. -/
theorem fom_le (d : Date) (hd : 1 ≤ d.day) : dateLe (first_of_month d) d = true := by
  rw [dateLe_iff]
  show d.year < d.year ∨ (d.year = d.year ∧
    (d.month < d.month ∨ (d.month = d.month ∧ (1 : Nat) ≤ d.day)))
  omega

/-- The structural characterisation of `month_windows` as produced by the
source: a nonempty chain of adjacent windows from the first of `s`'s month
to exactly `e`, every window but the last being a full calendar month. -/
theorem month_windows_spec (s e : Date) (hs : s.valid) (he : e.valid)
    (hle : dateLe s e = true) :
    windowChain (first_of_month s) e (month_windows s e) := by
  have h1 : dateLe (first_of_month s) e = true :=
    dateLe_trans' _ s _ (fom_le s hs.2.2.2.1) hle
  exact mwGo_spec _ s.year s.month e he hs.2.1 hs.2.2.1 h1 (Nat.le_refl _)

theorem dateLt_mk_right_iff (a : Date) (y m d : Nat) :
    dateLt a ⟨y, m, d⟩ = true ↔
      (a.year < y ∨ (a.year = y ∧ (a.month < m ∨ (a.month = m ∧ a.day < d)))) :=
  dateLt_iff _ _

theorem dateLe_mk_right_iff (a : Date) (y m d : Nat) :
    dateLe a ⟨y, m, d⟩ = true ↔
      (a.year < y ∨ (a.year = y ∧ (a.month < m ∨ (a.month = m ∧ a.day ≤ d)))) :=
  dateLe_iff _ _

theorem dateLe_of_lt' (a b : Date) (h : dateLt a b = true) : dateLe a b = true := by
  unfold dateLe
  rw [h]
  rfl

theorem dateLe_eq_false_of_lt (a b : Date) (h : dateLt a b = true) :
    dateLe b a = false := by
  cases hb : dateLe b a
  · rfl
  · exfalso
    rw [dateLt_iff] at h
    rw [dateLe_iff] at hb
    omega

/-- When the requested range is reversed (`end < start`), `month_windows`
raises nothing: it still returns a plain list — a single window
`(first of start's month, end)` when that first day is not after `end`,
and the empty list otherwise. -/
theorem month_windows_rev (s e : Date) (hs : s.valid) (he : e.valid)
    (hlt : dateLt e s = true) :
    month_windows s e =
      if dateLe (first_of_month s) e = true then [(first_of_month s, e)] else [] := by
  obtain ⟨hy1, hm1, hm2, hd1, hd2⟩ := hs
  by_cases h : dateLe (first_of_month s) e = true
  · rw [if_pos h]
    have h' : dateLe ⟨s.year, s.month, 1⟩ e = true := h
    have hidx := monthIdx_le s.year s.month e hm2 he.2.1 h'
    obtain ⟨k, hk⟩ : ∃ k, monthsBetween (first_of_month s) e = k + 1 := by
      refine ⟨monthsBetween (first_of_month s) e - 1, ?_⟩
      have hge : 1 ≤ monthsBetween (first_of_month s) e := by
        show 1 ≤ 12 * e.year + e.month + 1 - (12 * s.year + s.month)
        omega
      omega
    show mwGo (monthsBetween (first_of_month s) e) (first_of_month s) e = _
    have hfom : first_of_month s = ⟨s.year, s.month, 1⟩ := rfl
    rw [hk, mwGo, hfom, if_pos h']
    dsimp only
    rw [add_month_eq s.year s.month 1 hm2]
    have hlast : dateLe e ⟨s.year, s.month, daysInMonth s.year s.month⟩ = true := by
      apply dateLe_of_lt'
      apply dateLt_trans_le _ s _ hlt
      rw [dateLe_mk_right_iff]
      omega
    have hnfgt : dateLt e
        (if s.month < 12 then (⟨s.year, s.month + 1, 1⟩ : Date) else ⟨s.year + 1, 1, 1⟩) = true := by
      rw [dateLe_mk_right_iff] at hlast
      by_cases hm : s.month < 12
      · rw [if_pos hm, dateLt_mk_right_iff]
        omega
      · rw [if_neg hm, dateLt_mk_right_iff]
        omega
    have hnone : dateLe
        (if s.month < 12 then (⟨s.year, s.month + 1, 1⟩ : Date) else ⟨s.year + 1, 1, 1⟩) e = false :=
      dateLe_eq_false_of_lt _ _ hnfgt
    rw [mwGo_nil k _ e hnone]
    have hpred : predDay
        (if s.month < 12 then (⟨s.year, s.month + 1, 1⟩ : Date) else ⟨s.year + 1, 1, 1⟩) =
        (⟨s.year, s.month, daysInMonth s.year s.month⟩ : Date) := by
      by_cases hm : s.month < 12
      · rw [if_pos hm]
        exact predDay_first s.year s.month hm1
      · have h12 : s.month = 12 := by omega
        rw [if_neg hm, h12, daysInMonth_twelve]
        exact predDay_jan s.year
    rw [hpred]
    unfold dateMin
    rw [dateLt_asymm' e _ hlast]
    simp
  · rw [if_neg h]
    have h' : dateLe (first_of_month s) e = false := by
      cases hb : dateLe (first_of_month s) e
      · rfl
      · exact absurd hb h
    exact mwGo_nil _ _ _ h'

/-! ### The filename sanitizer

The source sanitizer works on Python strings; the embedding works on
`List Char` (a Lean `String` is its list of characters). -/

/-- The character class the source replaces with `'_'`:
`[\/\\\?\%\*\:\|\"<>\x00-\x1F]` (path separators, reserved/wildcard
characters, control characters). -/
def isIllegal (c : Char) : Bool :=
  c == '/' || c == '\\' || c == '?' || c == '%' || c == '*' || c == ':' ||
    c == '|' || c == '"' || c == '<' || c == '>' || decide (c.toNat ≤ 0x1F)

/-- Python's regex `\s` class for text patterns: ASCII whitespace, the
C0 separator controls, and the Unicode space code points. -/
def isSpaceChar (c : Char) : Bool :=
  c == ' ' || c == '\t' || c == '\n' || c == '\r' ||
    decide (c.toNat = 0x0B) || decide (c.toNat = 0x0C) ||
    (decide (0x1C ≤ c.toNat) && decide (c.toNat ≤ 0x1F)) ||
    decide (c.toNat = 0x85) || decide (c.toNat = 0xA0) ||
    decide (c.toNat = 0x1680) ||
    (decide (0x2000 ≤ c.toNat) && decide (c.toNat ≤ 0x200A)) ||
    decide (c.toNat = 0x2028) || decide (c.toNat = 0x2029) ||
    decide (c.toNat = 0x202F) || decide (c.toNat = 0x205F) ||
    decide (c.toNat = 0x3000)

/-- `re.sub(r"\s+", " ", ·)`: each maximal run of whitespace becomes a
single space. The Boolean argument records whether the previous character
was whitespace (the run's space has already been emitted). -/
def collapseWS : List Char → Bool → List Char
  | [], _ => []
  | c :: rest, prev =>
    if isSpaceChar c then
      if prev then collapseWS rest true else ' ' :: collapseWS rest true
    else c :: collapseWS rest false

/-- Python `str.strip()`: remove leading and trailing whitespace. -/
def stripWS (l : List Char) : List Char :=
  ((l.dropWhile isSpaceChar).reverse.dropWhile isSpaceChar).reverse

/-- Source `sanitize(name, max_len=150)`: replace each illegal character
by `'_'`, collapse whitespace runs to a single space, strip, then truncate
to `max_len` characters. -/
def sanitize (name : List Char) (max_len : Nat := 150) : List Char :=
  let s1 := name.map (fun c => if isIllegal c then '_' else c)
  let s2 := stripWS (collapseWS s1 false)
  s2.take max_len

theorem isIllegal_underscore : isIllegal '_' = false := by decide

theorem isIllegal_space : isIllegal ' ' = false := by decide

/-- Characters surviving `collapseWS` are the space it inserts or
characters of the input. -/
theorem collapseWS_mem (l : List Char) (b : Bool) (c : Char)
    (h : c ∈ collapseWS l b) : c = ' ' ∨ c ∈ l := by
  induction l generalizing b with
  | nil => simp [collapseWS] at h
  | cons x rest ih =>
    rw [collapseWS] at h
    by_cases hx : isSpaceChar x = true
    · rw [if_pos hx] at h
      by_cases hb : b = true
      · rw [if_pos hb] at h
        rcases ih true h with h' | h'
        · exact Or.inl h'
        · exact Or.inr (List.mem_cons_of_mem x h')
      · have hb' : b = false := by
          cases b
          · rfl
          · exact absurd rfl hb
        rw [hb'] at h
        simp only [Bool.false_eq_true, if_false] at h
        rcases List.mem_cons.1 h with h' | h'
        · exact Or.inl h'
        · rcases ih true h' with h'' | h''
          · exact Or.inl h''
          · exact Or.inr (List.mem_cons_of_mem x h'')
    · rw [if_neg hx] at h
      rcases List.mem_cons.1 h with h' | h'
      · exact Or.inr (h' ▸ List.mem_cons_self x rest)
      · rcases ih false h' with h'' | h''
        · exact Or.inl h''
        · exact Or.inr (List.mem_cons_of_mem x h'')

/-- Whitespace surviving `collapseWS` is exactly the single space. -/
theorem collapseWS_space_eq (l : List Char) (b : Bool) (c : Char)
    (h : c ∈ collapseWS l b) (hs : isSpaceChar c = true) : c = ' ' := by
  induction l generalizing b with
  | nil => simp [collapseWS] at h
  | cons x rest ih =>
    rw [collapseWS] at h
    by_cases hx : isSpaceChar x = true
    · rw [if_pos hx] at h
      by_cases hb : b = true
      · rw [if_pos hb] at h
        exact ih true h
      · have hb' : b = false := by
          cases b
          · rfl
          · exact absurd rfl hb
        rw [hb'] at h
        simp only [Bool.false_eq_true, if_false] at h
        rcases List.mem_cons.1 h with h' | h'
        · exact h'
        · exact ih true h'
    · rw [if_neg hx] at h
      rcases List.mem_cons.1 h with h' | h'
      · rw [h'] at hs
        exact absurd hs hx
      · exact ih false h'

/-- After a whitespace run has been collapsed, the output cannot begin
with another whitespace character. -/
theorem collapseWS_head_true (l : List Char) (y : Char)
    (h : (collapseWS l true).head? = some y) : isSpaceChar y = false := by
  induction l with
  | nil => simp [collapseWS] at h
  | cons x rest ih =>
    rw [collapseWS] at h
    by_cases hx : isSpaceChar x = true
    · rw [if_pos hx] at h
      simp only [if_pos] at h
      exact ih h
    · rw [if_neg hx] at h
      simp only [List.head?_cons, Option.some.injEq] at h
      rw [← h]
      cases hxx : isSpaceChar x
      · rfl
      · exact absurd hxx hx

/-- No two adjacent characters of the collapsed string are both
whitespace. -/
theorem collapseWS_chain (l : List Char) (b : Bool) :
    List.Chain' (fun a c => ¬(isSpaceChar a = true ∧ isSpaceChar c = true))
      (collapseWS l b) := by
  induction l generalizing b with
  | nil => simp [collapseWS]
  | cons x rest ih =>
    rw [collapseWS]
    by_cases hx : isSpaceChar x = true
    · rw [if_pos hx]
      by_cases hb : b = true
      · rw [if_pos hb]
        exact ih true
      · have hb' : b = false := by
          cases b
          · rfl
          · exact absurd rfl hb
        rw [hb']
        simp only [Bool.false_eq_true, if_false]
        rw [List.chain'_cons']
        refine ⟨?_, ih true⟩
        intro y hy
        rintro ⟨-, hy2⟩
        have := collapseWS_head_true rest y hy
        rw [this] at hy2
        exact Bool.false_ne_true hy2
    · rw [if_neg hx]
      rw [List.chain'_cons']
      refine ⟨?_, ih false⟩
      intro y hy
      rintro ⟨hx2, -⟩
      exact hx hx2

/-- `stripWS` keeps only characters of its input. -/
theorem stripWS_sublist (l : List Char) : (stripWS l).Sublist l := by
  unfold stripWS
  have h1 : ((l.dropWhile isSpaceChar).reverse.dropWhile isSpaceChar).Sublist
      (l.dropWhile isSpaceChar).reverse := List.dropWhile_sublist _
  have h2 := h1.reverse
  simp only [List.reverse_reverse] at h2
  exact h2.trans (List.dropWhile_sublist _)

/-- `stripWS` preserves the no-adjacent-whitespace chain. -/
theorem stripWS_chain (l : List Char)
    (h : List.Chain' (fun a c => ¬(isSpaceChar a = true ∧ isSpaceChar c = true)) l) :
    List.Chain' (fun a c => ¬(isSpaceChar a = true ∧ isSpaceChar c = true))
      (stripWS l) := by
  unfold stripWS
  have hdw : ∀ (l' : List Char),
      List.Chain' (fun a c => ¬(isSpaceChar a = true ∧ isSpaceChar c = true)) l' →
      List.Chain' (fun a c => ¬(isSpaceChar a = true ∧ isSpaceChar c = true))
        (l'.dropWhile isSpaceChar) := by
    intro l' hl'
    induction l' with
    | nil => simp [List.dropWhile]
    | cons x rest ih =>
      rw [List.dropWhile]
      by_cases hx : isSpaceChar x = true
      · rw [hx]
        simp only [if_pos]
        exact ih (hl'.tail)
      · have hx' : isSpaceChar x = false := by
          cases hxx : isSpaceChar x
          · rfl
          · exact absurd hxx hx
        rw [hx']
        simp only [Bool.false_eq_true, if_false]
        exact hl'
  have h1 := hdw l h
  have h2 : List.Chain' (flip (fun a c => ¬(isSpaceChar a = true ∧ isSpaceChar c = true)))
      (l.dropWhile isSpaceChar) := by
    apply h1.imp
    intro a b hab
    rintro ⟨x1, x2⟩
    exact hab ⟨x2, x1⟩
  have h3 := List.chain'_reverse.2 h2
  have h4 := hdw _ h3
  have h5 : List.Chain' (flip (fun a c => ¬(isSpaceChar a = true ∧ isSpaceChar c = true)))
      ((l.dropWhile isSpaceChar).reverse.dropWhile isSpaceChar) := by
    apply h4.imp
    intro a b hab
    rintro ⟨x1, x2⟩
    exact hab ⟨x2, x1⟩
  exact List.chain'_reverse.2 h5

/-- The replacement pass leaves no illegal character. -/
theorem map_illegal_free (name : List Char) :
    ∀ c ∈ name.map (fun c => if isIllegal c then '_' else c),
      isIllegal c = false := by
  intro c hc
  rw [List.mem_map] at hc
  obtain ⟨a, -, ha⟩ := hc
  by_cases h : isIllegal a = true
  · rw [if_pos h] at ha
    rw [← ha]
    exact isIllegal_underscore
  · rw [if_neg h] at ha
    rw [← ha]
    cases hx : isIllegal a
    · rfl
    · exact absurd hx h

/-- Everything the specification asks of the sanitizer: no illegal
characters survive, whitespace in the output is only the single space with
no two adjacent, and the result fits in `max_len` characters. -/
theorem sanitize_props (name : List Char) (n : Nat) :
    (∀ c ∈ sanitize name n, isIllegal c = false) ∧
    ((sanitize name n).length ≤ n) ∧
    (∀ c ∈ sanitize name n, isSpaceChar c = true → c = ' ') ∧
    List.Chain' (fun a c => ¬(isSpaceChar a = true ∧ isSpaceChar c = true))
      (sanitize name n) := by
  have hmem : ∀ c ∈ sanitize name n,
      c ∈ collapseWS (name.map (fun c => if isIllegal c then '_' else c)) false := by
    intro c hc
    have h1 : c ∈ stripWS (collapseWS (name.map (fun c => if isIllegal c then '_' else c)) false) :=
      (List.take_sublist n _).mem hc
    exact (stripWS_sublist _).mem h1
  refine ⟨?_, ?_, ?_, ?_⟩
  · intro c hc
    rcases collapseWS_mem _ _ c (hmem c hc) with h | h
    · rw [h]
      exact isIllegal_space
    · exact map_illegal_free name c h
  · rw [sanitize, List.length_take]
    exact min_le_left _ _
  · intro c hc hs
    exact collapseWS_space_eq _ _ c (hmem c hc) hs
  · exact ((stripWS_chain _ (collapseWS_chain _ _)).take n)

/-! ### Paths and the filesystem model

The script manipulates `pathlib.Path` values. A path is modelled as its
parent directory paired with its final component; `with_name` and
`with_suffix` only replace the final component. The filesystem is an
association list from paths to file contents (byte lists); `fsGet` is
`path.exists()`/reading, `fsSet` is writing, `fsDel` is `unlink`. -/

/-- A filesystem path: parent directory and final component. -/
structure FsPath where
  dir : List Char
  fname : List Char
  deriving DecidableEq

/-- The filesystem: a finite map from paths to byte contents. -/
def FS : Type := List (FsPath × List Nat)

/-- Look a path up (`Path.exists` / reading the file). -/
def fsGet : FS → FsPath → Option (List Nat)
  | [], _ => none
  | e :: rest, p => if e.1 = p then some e.2 else fsGet rest p

/-- Remove a path (`Path.unlink`). -/
def fsDel : FS → FsPath → FS
  | [], _ => []
  | e :: rest, p => if e.1 = p then fsDel rest p else e :: fsDel rest p

/-- Write a path (creating or truncating the file). -/
def fsSet (fs : FS) (p : FsPath) (c : List Nat) : FS :=
  (p, c) :: fsDel fs p

theorem fsGet_fsDel (fs : FS) (p q : FsPath) :
    fsGet (fsDel fs p) q = if q = p then none else fsGet fs q := by
  induction fs with
  | nil =>
    simp only [fsDel, fsGet]
    split <;> rfl
  | cons e rest ih =>
    simp only [fsDel]
    by_cases hep : e.1 = p
    · rw [if_pos hep, ih]
      by_cases hqp : q = p
      · rw [if_pos hqp, if_pos hqp]
      · rw [if_neg hqp, if_neg hqp]
        simp only [fsGet]
        rw [if_neg (fun h => hqp (h.symm.trans hep))]
    · rw [if_neg hep]
      simp only [fsGet]
      by_cases heq : e.1 = q
      · have hqp : ¬ q = p := fun h => hep (heq.trans h)
        rw [if_pos heq, if_neg hqp, if_pos heq]
      · rw [if_neg heq, ih, if_neg heq]

theorem fsGet_fsSet (fs : FS) (p q : FsPath) (c : List Nat) :
    fsGet (fsSet fs p c) q = if q = p then some c else fsGet fs q := by
  simp only [fsSet, fsGet]
  by_cases h : p = q
  · rw [if_pos h, if_pos h.symm]
  · rw [if_neg h, fsGet_fsDel, if_neg (fun hh => h hh.symm),
      if_neg (fun hh => h hh.symm)]

/-- A present path is among the filesystem's keys. -/
theorem fsGet_isSome_mem (fs : FS) (p : FsPath)
    (h : (fsGet fs p).isSome = true) : p ∈ fs.map Prod.fst := by
  induction fs with
  | nil => simp [fsGet] at h
  | cons e rest ih =>
    rw [fsGet] at h
    by_cases hep : e.1 = p
    · rw [List.map_cons]
      exact hep ▸ List.mem_cons_self _ _
    · rw [if_neg hep] at h
      exact List.mem_cons_of_mem _ (ih h)

/-! ### Decimal numerals (Python `str(i)` for a natural number) -/

/-- The decimal digit character for `k < 10`. -/
def digitChar (k : Nat) : Char :=
  match k with
  | 0 => '0' | 1 => '1' | 2 => '2' | 3 => '3' | 4 => '4'
  | 5 => '5' | 6 => '6' | 7 => '7' | 8 => '8' | _ => '9'

/-- Structural worker for `natDigits`: the fuel only bounds the digit
count (any fuel above `n` is enough). -/
def natDigitsAux : Nat → Nat → List Char
  | 0, _ => []
  | fuel + 1, n =>
    if n < 10 then [digitChar n]
    else natDigitsAux fuel (n / 10) ++ [digitChar (n % 10)]

/-- Python `str(n)` for a natural number: its decimal digits. -/
def natDigits (n : Nat) : List Char :=
  natDigitsAux (n + 1) n

/-- The numeric value of a digit character. -/
def digitVal (c : Char) : Nat := c.toNat - 48

/-- Decode a decimal numeral back to its value. -/
def decDigits (l : List Char) : Nat :=
  l.foldl (fun a c => 10 * a + digitVal c) 0

theorem digitVal_digitChar (k : Nat) (h : k < 10) :
    digitVal (digitChar k) = k := by
  interval_cases k <;> decide

theorem decDigits_append (l : List Char) (c : Char) :
    decDigits (l ++ [c]) = 10 * decDigits l + digitVal c := by
  unfold decDigits
  rw [List.foldl_append]
  rfl

theorem decDigits_natDigitsAux :
    ∀ fuel n, n < fuel → decDigits (natDigitsAux fuel n) = n := by
  intro fuel
  induction fuel with
  | zero =>
    intro n h
    omega
  | succ f ih =>
    intro n h
    rw [natDigitsAux]
    by_cases h10 : n < 10
    · rw [if_pos h10]
      show 10 * 0 + digitVal (digitChar n) = n
      rw [digitVal_digitChar n h10]
      omega
    · rw [if_neg h10]
      have hdiv : n / 10 < n := Nat.div_lt_self (by omega) (by omega)
      rw [decDigits_append, ih (n / 10) (by omega),
        digitVal_digitChar (n % 10) (Nat.mod_lt n (by omega))]
      omega

theorem decDigits_natDigits (n : Nat) : decDigits (natDigits n) = n :=
  decDigits_natDigitsAux (n + 1) n (by omega)

theorem natDigits_injective (m n : Nat) (h : natDigits m = natDigits n) :
    m = n := by
  rw [← decDigits_natDigits m, h, decDigits_natDigits]

/-! ### The collision resolver `next_unique_path` -/

/-- Source candidate `i`: `path.with_name(f"{path.stem}-{i}{path.suffix}")`
(same directory, numbered final component). -/
def candPath (dir stem sfx : List Char) (i : Nat) : FsPath :=
  ⟨dir, stem ++ '-' :: (natDigits i ++ sfx)⟩

theorem candPath_inj (dir stem sfx : List Char) (i j : Nat)
    (h : candPath dir stem sfx i = candPath dir stem sfx j) : i = j := by
  unfold candPath at h
  have h2 : stem ++ '-' :: (natDigits i ++ sfx) =
      stem ++ '-' :: (natDigits j ++ sfx) := congrArg FsPath.fname h
  have h3 := List.append_cancel_left h2
  have h4 : natDigits i ++ sfx = natDigits j ++ sfx := by
    injection h3
  exact natDigits_injective i j (List.append_cancel_right h4)

/-- The `while True` body of source `next_unique_path`: try candidates
`i, i + 1, …` until one is free. The source loop is unbounded and
terminates because the filesystem is finite; the embedding gives it
`fuel` iterations and `nupGo_isSome` proves `fs.length + 1` always
suffice. -/
def nupGo (fs : FS) (dir stem sfx : List Char) : Nat → Nat → Option FsPath
  | 0, _ => none
  | fuel + 1, i =>
    if (fsGet fs (candPath dir stem sfx i)).isSome then
      nupGo fs dir stem sfx fuel (i + 1)
    else some (candPath dir stem sfx i)

/-- Source `next_unique_path(path)`: the input path (directory `dir`,
final component `stem ++ sfx`, split by `pathlib` at the last dot) if it
does not exist, else the first free numbered candidate starting at 2. -/
def next_unique_path (fs : FS) (dir stem sfx : List Char) : Option FsPath :=
  if (fsGet fs ⟨dir, stem ++ sfx⟩).isSome then
    nupGo fs dir stem sfx (fs.length + 1) 2
  else some ⟨dir, stem ++ sfx⟩

theorem nupGo_none_occupied (fs : FS) (dir stem sfx : List Char) :
    ∀ fuel i, nupGo fs dir stem sfx fuel i = none →
      ∀ j, i ≤ j → j < i + fuel →
        (fsGet fs (candPath dir stem sfx j)).isSome = true := by
  intro fuel
  induction fuel with
  | zero =>
    intro i h j h1 h2
    omega
  | succ f ih =>
    intro i h j h1 h2
    rw [nupGo] at h
    by_cases hc : (fsGet fs (candPath dir stem sfx i)).isSome = true
    · rw [if_pos hc] at h
      by_cases hji : j = i
      · rw [hji]
        exact hc
      · exact ih (i + 1) h j (by omega) (by omega)
    · rw [if_neg hc] at h
      exact absurd h (by simp)

theorem nupGo_isSome (fs : FS) (dir stem sfx : List Char) (i : Nat) :
    (nupGo fs dir stem sfx (fs.length + 1) i).isSome = true := by
  cases hn : nupGo fs dir stem sfx (fs.length + 1) i with
  | some p => rfl
  | none =>
    exfalso
    have hocc := nupGo_none_occupied fs dir stem sfx (fs.length + 1) i hn
    have hnodup : ((List.range (fs.length + 1)).map
        (fun k => candPath dir stem sfx (i + k))).Nodup := by
      apply List.Nodup.map
      · intro a b hab
        have := candPath_inj dir stem sfx (i + a) (i + b) hab
        omega
      · exact List.nodup_range _
    have hsub : ∀ p ∈ (List.range (fs.length + 1)).map
        (fun k => candPath dir stem sfx (i + k)), p ∈ fs.map Prod.fst := by
      intro p hp
      rw [List.mem_map] at hp
      obtain ⟨k, hk, rfl⟩ := hp
      rw [List.mem_range] at hk
      exact fsGet_isSome_mem fs _ (hocc (i + k) (by omega) (by omega))
    have hcard1 : ((List.range (fs.length + 1)).map
        (fun k => candPath dir stem sfx (i + k))).toFinset.card = fs.length + 1 := by
      rw [List.toFinset_card_of_nodup hnodup]
      simp
    have hcard2 : ((List.range (fs.length + 1)).map
        (fun k => candPath dir stem sfx (i + k))).toFinset.card ≤ fs.length := by
      calc ((List.range (fs.length + 1)).map
            (fun k => candPath dir stem sfx (i + k))).toFinset.card
          ≤ (fs.map Prod.fst).toFinset.card := by
            apply Finset.card_le_card
            intro x hx
            rw [List.mem_toFinset] at hx ⊢
            exact hsub x hx
        _ ≤ (fs.map Prod.fst).length := List.toFinset_card_le _
        _ = fs.length := by simp
    omega

theorem nupGo_some_spec (fs : FS) (dir stem sfx : List Char) :
    ∀ fuel i p, nupGo fs dir stem sfx fuel i = some p →
      ∃ k, i ≤ k ∧ p = candPath dir stem sfx k ∧ fsGet fs p = none ∧
        ∀ j, i ≤ j → j < k → (fsGet fs (candPath dir stem sfx j)).isSome = true := by
  intro fuel
  induction fuel with
  | zero =>
    intro i p h
    exact absurd h (by simp [nupGo])
  | succ f ih =>
    intro i p h
    rw [nupGo] at h
    by_cases hc : (fsGet fs (candPath dir stem sfx i)).isSome = true
    · rw [if_pos hc] at h
      obtain ⟨k, hk1, hk2, hk3, hk4⟩ := ih (i + 1) p h
      refine ⟨k, by omega, hk2, hk3, ?_⟩
      intro j hj1 hj2
      by_cases hji : j = i
      · rw [hji]
        exact hc
      · exact hk4 j (by omega) hj2
    · rw [if_neg hc] at h
      have hp : p = candPath dir stem sfx i := by
        injection h with h'
        exact h'.symm
      refine ⟨i, le_refl i, hp, ?_, ?_⟩
      · rw [hp]
        exact Option.not_isSome_iff_eq_none.1 (by simpa using hc)
      · intro j hj1 hj2
        omega

/-- Full characterisation of `next_unique_path`: it always returns a path,
that path does not exist, a free input path is returned unchanged, and
under collision the result is the first free numbered candidate from 2. -/
theorem next_unique_path_spec (fs : FS) (dir stem sfx : List Char) :
    ∃ p, next_unique_path fs dir stem sfx = some p ∧ fsGet fs p = none ∧
      (fsGet fs ⟨dir, stem ++ sfx⟩ = none → p = ⟨dir, stem ++ sfx⟩) ∧
      ((fsGet fs ⟨dir, stem ++ sfx⟩).isSome = true →
        ∃ k, 2 ≤ k ∧ p = candPath dir stem sfx k ∧
          ∀ j, 2 ≤ j → j < k → (fsGet fs (candPath dir stem sfx j)).isSome = true) := by
  unfold next_unique_path
  by_cases h : (fsGet fs ⟨dir, stem ++ sfx⟩).isSome = true
  · rw [if_pos h]
    cases hn : nupGo fs dir stem sfx (fs.length + 1) 2 with
    | none =>
      have hs := nupGo_isSome fs dir stem sfx 2
      rw [hn] at hs
      exact absurd hs (by simp)
    | some p =>
      obtain ⟨k, hk1, hk2, hk3, hk4⟩ := nupGo_some_spec fs dir stem sfx _ 2 p hn
      refine ⟨p, rfl, hk3, ?_, fun _ => ⟨k, hk1, hk2, hk4⟩⟩
      intro hnone
      rw [hnone] at h
      simp at h
  · rw [if_neg h]
    have hnone : fsGet fs ⟨dir, stem ++ sfx⟩ = none := by
      cases hg : fsGet fs ⟨dir, stem ++ sfx⟩
      · rfl
      · rw [hg] at h
        simp at h
    exact ⟨_, rfl, hnone, fun _ => rfl, fun hs => absurd hs h⟩

/-! ### The streaming retriever `download`

A server response carries an HTTP status, the chunk sequence
`iter_content` would yield, and optionally the number of chunks after
which the stream raises mid-transfer. The retriever is driven by the
list of responses successive `requests.get` calls return (the source
re-requests inside its 401 branch). The result mirrors the source's
exits: `success` (normal return), `tokenExpired` (the unconditional
`RuntimeError("Token expired …")` raised after the recursive retry
returns), `httpError` (`raise_for_status`), `streamError` (an exception
while iterating the body), `emptyError` (`RuntimeError("Downloaded zero
bytes.")`), and `noResponse` (the oracle ran out — the unbounded
recursion exceeded the modelled depth). The third component counts the
`get_token()` calls made. -/

structure Response where
  status : Nat
  chunks : List (List Nat)
  failAfter : Option Nat
  deriving DecidableEq

inductive DlResult
  | success
  | tokenExpired
  | httpError (status : Nat)
  | streamError
  | emptyError
  | noResponse
  deriving DecidableEq

/-- The bytes written when the whole stream is consumed: non-empty chunks
concatenated (`if chunk: f.write(chunk)`). -/
def fullContent (r : Response) : List Nat :=
  (r.chunks.filter (fun c => ¬ c = [])).flatten

/-- The bytes written when the stream fails after `k` chunks. -/
def partContent (r : Response) (k : Nat) : List Nat :=
  ((r.chunks.take k).filter (fun c => ¬ c = [])).flatten

/-- `dest.with_suffix(dest.suffix + ".part")`: appends `.part` to the
final component (the original suffix is replaced by itself plus
`.part`). -/
def tmpPath (dest : FsPath) : FsPath :=
  ⟨dest.dir, dest.fname ++ ('.' :: 'p' :: 'a' :: 'r' :: 't' :: [])⟩

/-- Source `download(url, dest, token)` over the response oracle. -/
def download : List Response → FsPath → FS → DlResult × FS × Nat
  | [], _, fs => (.noResponse, fs, 0)
  | r :: rest, dest, fs =>
    if r.status = 401 then
      -- token = get_token(); download(url, dest, token); raise RuntimeError
      let out := download rest dest fs
      (if out.1 = .success then .tokenExpired else out.1, out.2.1, out.2.2 + 1)
    else if 400 ≤ r.status then
      (.httpError r.status, fs, 0)
    else
      match r.failAfter with
      | some k => (.streamError, fsSet fs (tmpPath dest) (partContent r k), 0)
      | none =>
        let c := fullContent r
        if c = [] then
          (.emptyError, fsDel (fsSet fs (tmpPath dest) c) (tmpPath dest), 0)
        else
          (.success, fsSet (fsDel (fsSet fs (tmpPath dest) c) (tmpPath dest)) dest c, 0)

/-- The temporary `.part` sibling is a different path from the
destination. -/
theorem tmpPath_ne (dest : FsPath) : ¬ tmpPath dest = dest := by
  intro h
  have h1 : (tmpPath dest).fname.length = dest.fname.length :=
    congrArg (fun l => l.length) (congrArg FsPath.fname h)
  have h2 : (tmpPath dest).fname.length = dest.fname.length + 5 := by
    simp [tmpPath]
  omega

/-- Under a response oracle with no unauthorized status among the
responses actually consumed, `download` never calls `get_token`. (Only
the head response can trigger the 401 branch.) -/
theorem download_no401_calls (oracle : List Response) (dest : FsPath) (fs : FS)
    (h : ∀ r ∈ oracle, ¬ r.status = 401) :
    (download oracle dest fs).2.2 = 0 := by
  cases oracle with
  | nil => rfl
  | cons r rest =>
    have hr : ¬ r.status = 401 := h r (List.mem_cons_self _ _)
    rw [download, if_neg hr]
    by_cases hs : 400 ≤ r.status
    · rw [if_pos hs]
    · rw [if_neg hs]
      cases hf : r.failAfter with
      | some k => rfl
      | none =>
        by_cases hc : fullContent r = []
        · simp only [hc, if_pos]
        · rw [if_neg hc]

/-- Destination-path safety of `download`, from any state where the
destination is absent: the destination exists afterwards exactly when the
call returned normally (`success`) or raised the after-retry
`RuntimeError` (`tokenExpired`, in which case the nested retry completed
the rename); and whatever is at the destination is the complete, non-empty
content of a fully consumed successful response — never a partial,
truncated or zero-length body. -/
theorem download_dest_safety (oracle : List Response) (dest : FsPath) :
    ∀ fs, fsGet fs dest = none →
      (((download oracle dest fs).1 = .success ∨
          (download oracle dest fs).1 = .tokenExpired) ↔
        (fsGet (download oracle dest fs).2.1 dest).isSome = true) ∧
      (∀ c, fsGet (download oracle dest fs).2.1 dest = some c →
        ¬ c = [] ∧ ∃ r ∈ oracle, r.status < 400 ∧ r.failAfter = none ∧
          c = fullContent r) := by
  induction oracle with
  | nil =>
    intro fs hd
    constructor
    · rw [download]
      dsimp only
      rw [hd]
      constructor
      · rintro (h | h) <;> exact absurd h (by simp)
      · intro h
        exact absurd h (by simp)
    · intro c hc
      rw [download] at hc
      dsimp only at hc
      rw [hd] at hc
      exact absurd hc (by simp)
  | cons r rest ih =>
    intro fs hd
    by_cases h401 : r.status = 401
    · have hred : download (r :: rest) dest fs =
          (if (download rest dest fs).1 = .success then .tokenExpired
            else (download rest dest fs).1,
           (download rest dest fs).2.1, (download rest dest fs).2.2 + 1) := by
        rw [download, if_pos h401]
      obtain ⟨ih1, ih2⟩ := ih fs hd
      rw [hred]
      constructor
      · dsimp only
        rw [← ih1]
        by_cases hs : (download rest dest fs).1 = .success
        · rw [if_pos hs]
          constructor
          · intro _
            exact Or.inl hs
          · intro _
            exact Or.inr rfl
        · rw [if_neg hs]
      · dsimp only
        intro c hc
        obtain ⟨hne, rr, hrr, hp⟩ := ih2 c hc
        exact ⟨hne, rr, List.mem_cons_of_mem _ hrr, hp⟩
    · by_cases hs400 : 400 ≤ r.status
      · have hred : download (r :: rest) dest fs = (.httpError r.status, fs, 0) := by
          rw [download, if_neg h401, if_pos hs400]
        rw [hred]
        constructor
        · dsimp only
          rw [hd]
          constructor
          · rintro (h | h) <;> exact absurd h (by simp)
          · intro h
            exact absurd h (by simp)
        · dsimp only
          intro c hc
          rw [hd] at hc
          exact absurd hc (by simp)
      · cases hfa : r.failAfter with
        | some k =>
          have hred : download (r :: rest) dest fs =
              (.streamError, fsSet fs (tmpPath dest) (partContent r k), 0) := by
            rw [download, if_neg h401, if_neg hs400, hfa]
          rw [hred]
          have hget : fsGet (fsSet fs (tmpPath dest) (partContent r k)) dest = none := by
            rw [fsGet_fsSet, if_neg (fun h => tmpPath_ne dest h.symm), hd]
          constructor
          · dsimp only
            rw [hget]
            constructor
            · rintro (h | h) <;> exact absurd h (by simp)
            · intro h
              exact absurd h (by simp)
          · dsimp only
            intro c hc
            rw [hget] at hc
            exact absurd hc (by simp)
        | none =>
          by_cases hc : fullContent r = []
          · have hred : download (r :: rest) dest fs =
                (.emptyError,
                 fsDel (fsSet fs (tmpPath dest) (fullContent r)) (tmpPath dest), 0) := by
              rw [download, if_neg h401, if_neg hs400, hfa]
              dsimp only
              rw [if_pos hc]
            rw [hred]
            have hget : fsGet (fsDel (fsSet fs (tmpPath dest) (fullContent r))
                (tmpPath dest)) dest = none := by
              rw [fsGet_fsDel, if_neg (fun h => tmpPath_ne dest h.symm),
                fsGet_fsSet, if_neg (fun h => tmpPath_ne dest h.symm), hd]
            constructor
            · dsimp only
              rw [hget]
              constructor
              · rintro (h | h) <;> exact absurd h (by simp)
              · intro h
                exact absurd h (by simp)
            · dsimp only
              intro c hcc
              rw [hget] at hcc
              exact absurd hcc (by simp)
          · have hred : download (r :: rest) dest fs =
                (.success,
                 fsSet (fsDel (fsSet fs (tmpPath dest) (fullContent r)) (tmpPath dest))
                   dest (fullContent r), 0) := by
              rw [download, if_neg h401, if_neg hs400, hfa]
              dsimp only
              rw [if_neg hc]
            rw [hred]
            have hget : fsGet (fsSet (fsDel (fsSet fs (tmpPath dest) (fullContent r))
                (tmpPath dest)) dest (fullContent r)) dest = some (fullContent r) := by
              rw [fsGet_fsSet, if_pos rfl]
            constructor
            · dsimp only
              rw [hget]
              simp
            · dsimp only
              intro c hcc
              rw [hget] at hcc
              have hcc' : c = fullContent r := by
                injection hcc with h'
                exact h'.symm
              exact ⟨by rw [hcc']; exact hc, r, List.mem_cons_self _ _,
                by omega, hfa, hcc'⟩

/-- A completed transfer of zero bytes: `download` deletes the temp file
and raises (`emptyError`); neither the temporary nor the destination path
gains a file. -/
theorem download_zero_bytes (r : Response) (rest : List Response)
    (dest : FsPath) (fs : FS)
    (h401 : ¬ r.status = 401) (hok : ¬ 400 ≤ r.status)
    (hfa : r.failAfter = none) (hempty : fullContent r = []) :
    (download (r :: rest) dest fs).1 = .emptyError ∧
    fsGet (download (r :: rest) dest fs).2.1 (tmpPath dest) = none ∧
    fsGet (download (r :: rest) dest fs).2.1 dest = fsGet fs dest := by
  have hred : download (r :: rest) dest fs =
      (.emptyError,
       fsDel (fsSet fs (tmpPath dest) (fullContent r)) (tmpPath dest), 0) := by
    rw [download, if_neg h401, if_neg hok, hfa]
    dsimp only
    rw [if_pos hempty]
  rw [hred]
  refine ⟨rfl, ?_, ?_⟩
  · dsimp only
    rw [fsGet_fsDel, if_pos rfl]
  · dsimp only
    rw [fsGet_fsDel, if_neg (fun h => tmpPath_ne dest h.symm),
      fsGet_fsSet, if_neg (fun h => tmpPath_ne dest h.symm)]

/-! ### The cursor paginator `list_records`

The listing endpoint is a function from the request's cursor and bearer
token to a page. Tokens are numbered by the order `get_token` returns
them, so "the fresh token" after token `t` is `t + 1`. Each `Req` records
one HTTP request the paginator issues (its cursor and token). -/

structure Page (α : Type) where
  status : Nat
  meetings : List α
  nextPageToken : Option Nat

/-- One request to the listing endpoint. -/
structure Req where
  cursor : Option Nat
  token : Nat
  deriving DecidableEq

inductive ListResult
  | ok
  | httpError (status : Nat)
  | fuelOut
  deriving DecidableEq

/-- One page fetch of the source loop: request the page and, exactly when
the status is 401, fetch a fresh token and retry the same page (same
cursor, same parameters) once. Returns the response used, the token now
held, and the requests issued. -/
def fetchPage {α : Type} (server : Option Nat → Nat → Page α)
    (cur : Option Nat) (tok : Nat) : Page α × Nat × List Req :=
  let r := server cur tok
  if r.status = 401 then
    (server cur (tok + 1), tok + 1, [⟨cur, tok⟩, ⟨cur, tok + 1⟩])
  else (r, tok, [⟨cur, tok⟩])

/-- Source `list_records(token, user_id, f, t)`: follow `next_page_token`
cursors, yielding each page's meetings paired with the token currently
held (the source yields `m, token`). `raise_for_status` is the
`400 ≤ status` exit. The fuel bounds the number of pages; the source loop
runs until the service stops returning a cursor. -/
def list_records {α : Type} (server : Option Nat → Nat → Page α) :
    Nat → Nat → Option Nat → List (α × Nat) × ListResult × List Req
  | 0, _, _ => ([], .fuelOut, [])
  | n + 1, tok, cur =>
    let f := fetchPage server cur tok
    if 400 ≤ f.1.status then ([], .httpError f.1.status, f.2.2)
    else
      match f.1.nextPageToken with
      | none => (f.1.meetings.map (fun m => (m, f.2.1)), .ok, f.2.2)
      | some c =>
        let rec2 := list_records server n f.2.1 (some c)
        (f.1.meetings.map (fun m => (m, f.2.1)) ++ rec2.1, rec2.2.1,
          f.2.2 ++ rec2.2.2)

/-! ### The orchestrator `main`

`main` consumes `list_records` lazily: a page is fetched, its meetings
are processed (each acquiring a fresh token and downloading its files),
and only then is the next page requested. `runPages` inlines the
generator into that consumption order so that the single `get_token`
counter (`gen`, whose value is also the latest token's number) is
threaded faithfully. Any download failure propagates and aborts the whole
run, as in the source, where `download`'s exceptions are uncaught. -/

/-- The characters of a string literal. -/
def strL (s : String) : List Char := s.data

/-- Python `str.lower()`. -/
def pyLower (l : List Char) : List Char := l.map Char.toLower

/-- One entry of a meeting's `recording_files`; `none` models a missing
key. -/
structure RecFile where
  recording_type : Option (List Char)
  file_extension : Option (List Char)
  file_type : Option (List Char)
  download_url : Option (List Char)

/-- A meeting record; `start_time` is the parsed UTC date of the
record's ISO timestamp. -/
structure Meeting where
  topic : Option (List Char)
  start_time : Date
  recording_files : List RecFile

/-- Python's `a or b` for optional strings: `b` when `a` is missing or
empty (falsy). -/
def orFalsy (o : Option (List Char)) (d : List Char) : List Char :=
  match o with
  | some s => if s = [] then d else s
  | none => d

/-- `str(rf.get("recording_type", "file")).lower().replace(" ", "_")`. -/
def rfType (rf : RecFile) : List Char :=
  (pyLower (rf.recording_type.getD (strL "file"))).map
    (fun c => if c = ' ' then '_' else c)

/-- `str(rf.get("file_extension") or rf.get("file_type") or "dat").lower()`. -/
def rfExt (rf : RecFile) : List Char :=
  pyLower (orFalsy rf.file_extension (orFalsy rf.file_type (strL "dat")))

/-- Left-pad a numeral with zeros to width `n`. -/
def padZeros (l : List Char) (n : Nat) : List Char :=
  List.replicate (n - l.length) '0' ++ l

/-- `date.isoformat()`: `YYYY-MM-DD`. -/
def isoDate (d : Date) : List Char :=
  padZeros (natDigits d.year) 4 ++
    '-' :: (padZeros (natDigits d.month) 2 ++ '-' :: padZeros (natDigits d.day) 2)

/-- Index of the last `'.'` of the name, scanning left to right. -/
def lastDotIdxAux : List Char → Nat → Option Nat → Option Nat
  | [], _, acc => acc
  | c :: rest, i, acc => lastDotIdxAux rest (i + 1) (if c = '.' then some i else acc)

def lastDotIdx (l : List Char) : Option Nat :=
  lastDotIdxAux l 0 none

/-- `pathlib`'s stem/suffix split of a final component: the suffix starts
at the last dot when that dot is neither the first nor the last
character; otherwise the suffix is empty. -/
def splitExt (name : List Char) : List Char × List Char :=
  match lastDotIdx name with
  | none => (name, [])
  | some i =>
    if 0 < i ∧ i < name.length - 1 then (name.take i, name.drop i) else (name, [])

/-- Run-wide mutable state of `main`: `gen` counts `get_token` calls (and
is the value of the newest token), `listTok` is main's `token` variable,
`folders` the directories created, `dlTrace` records each download
attempt's destination and the token it was started with. -/
structure RunState where
  gen : Nat
  listTok : Nat
  fs : FS
  folders : List (List Char)
  dlTrace : List (FsPath × Nat)
  meetingsStarted : Nat

inductive RunErr
  | dl (e : DlResult)
  | listing (status : Nat)
  | pageFuelOut
  | resolveFuelOut
  deriving DecidableEq

/-- Left fold that stops at the first error, as uncaught exceptions do. -/
def foldlE {σ α ε : Type} (f : σ → α → σ × Option ε) : σ → List α → σ × Option ε
  | s, [] => (s, none)
  | s, a :: as =>
    match f s a with
    | (s', none) => foldlE f s' as
    | (s', some e) => (s', some e)

/-- The body of main's `recording_files` loop for one file: derive the
name, resolve a unique destination, skip when there is no
`download_url`, otherwise download with the meeting's token `mTok`. -/
def processFile (dl : List Char → List Response) (folderName : List Char)
    (mTok : Nat) (st : RunState) (rf : RecFile) : RunState × Option RunErr :=
  let fname := sanitize (rfType rf ++ '.' :: rfExt rf) 150
  let sp := splitExt fname
  match next_unique_path st.fs folderName sp.1 sp.2 with
  | none => (st, some .resolveFuelOut)
  | some dest =>
    match rf.download_url with
    | none => (st, none)
    | some url =>
      let out := download (dl url) dest st.fs
      let st' := { st with
        fs := out.2.1
        gen := st.gen + out.2.2
        dlTrace := st.dlTrace ++ [(dest, mTok)] }
      if out.1 = .success then (st', none) else (st', some (.dl out.1))

/-- The body of main's meeting loop: sanitize the topic, acquire a fresh
token (`new_token = get_token()`), create the dated folder, then process
every recording file with that token. -/
def processMeeting (dl : List Char → List Response) (st : RunState)
    (m : Meeting) : RunState × Option RunErr :=
  let topic := sanitize (m.topic.getD (strL "Untitled")) 150
  let g := st.gen + 1
  let folderName := strL "xRecording - " ++ topic ++ strL " - " ++ isoDate m.start_time
  let st1 := { st with
    gen := g
    meetingsStarted := st.meetingsStarted + 1
    folders := if folderName ∈ st.folders then st.folders
               else st.folders ++ [folderName] }
  foldlE (processFile dl folderName g) st1 m.recording_files

/-- One window of main's loop, consuming the `list_records` generator
lazily: fetch a page (with the generator's single 401 refresh-and-retry),
process its meetings, then follow the cursor. `tok` is the generator's
token variable; main's `token` is rebound to it at every yield
(`listTok`). -/
def runPages (ls : Date × Date → Option Nat → Nat → Page Meeting)
    (dl : List Char → List Response) (w : Date × Date) :
    Nat → Nat → Option Nat → RunState → RunState × Option RunErr
  | 0, _, _, st => (st, some .pageFuelOut)
  | fuel + 1, tok, cur, st =>
    let r0 := ls w cur tok
    let rt : Page Meeting × Nat × RunState :=
      if r0.status = 401 then
        (ls w cur (st.gen + 1), st.gen + 1, { st with gen := st.gen + 1 })
      else (r0, tok, st)
    if 400 ≤ rt.1.status then (rt.2.2, some (.listing rt.1.status))
    else
      let fm := foldlE (fun s m => processMeeting dl { s with listTok := rt.2.1 } m)
        rt.2.2 rt.1.meetings
      match fm.2 with
      | some e => (fm.1, some e)
      | none =>
        match rt.1.nextPageToken with
        | none => (fm.1, none)
        | some c => runPages ls dl w fuel rt.2.1 (some c) fm.1

/-- Source `main()`: one initial `get_token`, then for every window of
`month_windows` walk the records and download every asset. `pageFuel`
bounds the pages per window (the source loop is unbounded). -/
def runMain (ls : Date × Date → Option Nat → Nat → Page Meeting)
    (dl : List Char → List Response) (startD endD : Date) (pageFuel : Nat) :
    RunState × Option RunErr :=
  let st0 : RunState := { gen := 1, listTok := 1, fs := [], folders := [],
                          dlTrace := [], meetingsStarted := 0 }
  foldlE (fun st w => runPages ls dl w pageFuel st.listTok none st) st0
    (month_windows startD endD)

/-! ### Token-accounting lemmas for runs without credential invalidation -/

/-- A reflexive-transitive relation preserved by every step of an
error-propagating fold is preserved by the whole fold. -/
theorem foldlE_rel {σ α ε : Type} (R : σ → σ → Prop)
    (htrans : ∀ a b c, R a b → R b c → R a c)
    (f : σ → α → σ × Option ε)
    (hstep : ∀ s a, R s (f s a).1)
    (hrefl : ∀ s, R s s) :
    ∀ l s, R s (foldlE f s l).1 := by
  intro l
  induction l with
  | nil =>
    intro s
    exact hrefl s
  | cons a as ih =>
    intro s
    rw [foldlE]
    rcases hfa : f s a with ⟨s', eo⟩
    cases eo with
    | none =>
      dsimp only
      refine htrans _ _ _ ?_ (ih s')
      have h2 := hstep s a
      rw [hfa] at h2
      exact h2
    | some e =>
      dsimp only
      have h2 := hstep s a
      rw [hfa] at h2
      exact h2

/-- `processFile` either leaves the state unchanged (skip, or collision
fuel exhausted) or applies exactly the download update. -/
theorem processFile_out (dl : List Char → List Response) (folderName : List Char)
    (mTok : Nat) (st : RunState) (rf : RecFile) :
    (processFile dl folderName mTok st rf).1 = st ∨
    ∃ dest url,
      (processFile dl folderName mTok st rf).1 = { st with
        fs := (download (dl url) dest st.fs).2.1
        gen := st.gen + (download (dl url) dest st.fs).2.2
        dlTrace := st.dlTrace ++ [(dest, mTok)] } := by
  unfold processFile
  dsimp only
  split
  · exact Or.inl rfl
  · split
    · exact Or.inl rfl
    · split
      · exact Or.inr ⟨_, _, rfl⟩
      · exact Or.inr ⟨_, _, rfl⟩

/-- When no download response is a 401, `processFile` calls `get_token`
never, keeps the counters, and only appends trace entries carrying the
meeting token. -/
theorem processFile_no401 (dl : List Char → List Response) (folderName : List Char)
    (mTok : Nat) (st : RunState) (rf : RecFile)
    (h : ∀ url r, r ∈ dl url → ¬ r.status = 401) :
    (processFile dl folderName mTok st rf).1.gen = st.gen ∧
    (processFile dl folderName mTok st rf).1.listTok = st.listTok ∧
    (processFile dl folderName mTok st rf).1.meetingsStarted = st.meetingsStarted ∧
    ∀ e ∈ (processFile dl folderName mTok st rf).1.dlTrace,
      e ∈ st.dlTrace ∨ e.2 = mTok := by
  rcases processFile_out dl folderName mTok st rf with hout | ⟨dest, url, hout⟩
  · rw [hout]
    exact ⟨rfl, rfl, rfl, fun e he => Or.inl he⟩
  · rw [hout]
    have hc : (download (dl url) dest st.fs).2.2 = 0 :=
      download_no401_calls (dl url) dest st.fs (fun r hr => h url r hr)
    refine ⟨by rw [hc]; show st.gen + 0 = st.gen; omega, rfl, rfl, ?_⟩
    intro e he
    rcases List.mem_append.1 he with he | he
    · exact Or.inl he
    · rcases List.mem_cons.1 he with he | he
      · right
        rw [he]
      · simp at he

/-- When no download response is a 401, `processMeeting` calls
`get_token` exactly once — the fresh per-record token — and every
download it starts carries exactly that token. -/
theorem processMeeting_no401 (dl : List Char → List Response) (st : RunState)
    (m : Meeting) (h : ∀ url r, r ∈ dl url → ¬ r.status = 401) :
    (processMeeting dl st m).1.gen = st.gen + 1 ∧
    (processMeeting dl st m).1.listTok = st.listTok ∧
    (processMeeting dl st m).1.meetingsStarted = st.meetingsStarted + 1 ∧
    ∀ e ∈ (processMeeting dl st m).1.dlTrace,
      e ∈ st.dlTrace ∨ e.2 = st.gen + 1 := by
  have hR := foldlE_rel
    (fun a b => b.gen = a.gen ∧ b.listTok = a.listTok ∧
      b.meetingsStarted = a.meetingsStarted ∧
      ∀ e ∈ b.dlTrace, e ∈ a.dlTrace ∨ e.2 = st.gen + 1)
    (by
      rintro a b c ⟨h1, h2, h3, h4⟩ ⟨g1, g2, g3, g4⟩
      refine ⟨g1.trans h1, g2.trans h2, g3.trans h3, ?_⟩
      intro e he
      rcases g4 e he with he' | he'
      · exact h4 e he'
      · exact Or.inr he')
    (processFile dl
      (strL "xRecording - " ++ sanitize (m.topic.getD (strL "Untitled")) 150 ++
        strL " - " ++ isoDate m.start_time)
      (st.gen + 1))
    (by
      intro s a
      exact processFile_no401 dl _ (st.gen + 1) s a h)
    (fun s => ⟨rfl, rfl, rfl, fun e he => Or.inl he⟩)
    m.recording_files
    { st with
      gen := st.gen + 1
      meetingsStarted := st.meetingsStarted + 1
      folders := if (strL "xRecording - " ++ sanitize (m.topic.getD (strL "Untitled")) 150 ++
          strL " - " ++ isoDate m.start_time) ∈ st.folders then st.folders
        else st.folders ++ [strL "xRecording - " ++ sanitize (m.topic.getD (strL "Untitled")) 150 ++
          strL " - " ++ isoDate m.start_time] }
  obtain ⟨hg, hl, hms, htr⟩ := hR
  exact ⟨hg, hl, hms, htr⟩

/-- Token accounting for one window when neither the listing endpoint nor
any download returns a 401: `get_token` calls grow exactly with the
number of records started. -/
theorem runPages_no401
    (ls : Date × Date → Option Nat → Nat → Page Meeting)
    (dl : List Char → List Response) (w : Date × Date)
    (hls : ∀ cur tok, ¬ (ls w cur tok).status = 401)
    (hdl : ∀ url r, r ∈ dl url → ¬ r.status = 401) :
    ∀ fuel tok cur st,
      (runPages ls dl w fuel tok cur st).1.gen + st.meetingsStarted =
        st.gen + (runPages ls dl w fuel tok cur st).1.meetingsStarted := by
  intro fuel
  induction fuel with
  | zero =>
    intro tok cur st
    rfl
  | succ f ih =>
    intro tok cur st
    rw [runPages]
    dsimp only
    rw [if_neg (hls cur tok)]
    dsimp only
    by_cases hs : 400 ≤ (ls w cur tok).status
    · rw [if_pos hs]
    · rw [if_neg hs]
      have hfold := foldlE_rel
        (fun a b => b.gen + a.meetingsStarted = a.gen + b.meetingsStarted)
        (fun a b c h1 h2 => by omega)
        (fun s m => processMeeting dl { s with listTok := tok } m)
        (by
          intro s a
          dsimp only
          have hm := processMeeting_no401 dl { s with listTok := tok } a hdl
          have h1 : (processMeeting dl { s with listTok := tok } a).1.gen =
              s.gen + 1 := hm.1
          have h3 : (processMeeting dl { s with listTok := tok } a).1.meetingsStarted =
              s.meetingsStarted + 1 := hm.2.2.1
          omega)
        (fun s => rfl)
        (ls w cur tok).meetings st
      cases h2 : (foldlE (fun s m => processMeeting dl { s with listTok := tok } m)
          st (ls w cur tok).meetings).2 with
      | some e =>
        dsimp only
        omega
      | none =>
        dsimp only
        cases hnp : (ls w cur tok).nextPageToken with
        | none =>
          dsimp only
          omega
        | some c =>
          dsimp only
          have hrec := ih tok (some c)
            (foldlE (fun s m => processMeeting dl { s with listTok := tok } m)
              st (ls w cur tok).meetings).1
          omega

/-- Token accounting for a whole run without credential invalidation:
identity-provider calls are exactly one plus the number of records
started. -/
theorem runMain_no401
    (ls : Date × Date → Option Nat → Nat → Page Meeting)
    (dl : List Char → List Response) (startD endD : Date) (pageFuel : Nat)
    (hls : ∀ w cur tok, ¬ (ls w cur tok).status = 401)
    (hdl : ∀ url r, r ∈ dl url → ¬ r.status = 401) :
    (runMain ls dl startD endD pageFuel).1.gen =
      1 + (runMain ls dl startD endD pageFuel).1.meetingsStarted := by
  have hR := foldlE_rel
    (fun a b => b.gen + a.meetingsStarted = a.gen + b.meetingsStarted)
    (fun a b c h1 h2 => by omega)
    (fun st w => runPages ls dl w pageFuel st.listTok none st)
    (by
      intro s w
      exact runPages_no401 ls dl w (hls w) hdl pageFuel s.listTok none s)
    (fun s => rfl)
    (month_windows startD endD)
    { gen := 1, listTok := 1, fs := [], folders := [], dlTrace := [],
      meetingsStarted := 0 }
  have hg : (runMain ls dl startD endD pageFuel).1.gen +
      (0 : Nat) = 1 + (runMain ls dl startD endD pageFuel).1.meetingsStarted := hR
  omega

/-! ### The end-to-end scenario of the specification

Range 2024-01-15 .. 2024-03-10; the remote returns two records in the
January window and one in the March window, each with one audio asset and
one zero-byte video asset. -/

/-- A scenario record with one audio asset and one zero-byte video
asset. -/
def scMeeting (t : String) (d : Date) (au vu : String) : Meeting :=
  { topic := some (strL t)
    start_time := d
    recording_files := [
      { recording_type := some (strL "audio_only")
        file_extension := some (strL "m4a")
        file_type := none
        download_url := some (strL au) },
      { recording_type := some (strL "shared_screen_with_speaker_view")
        file_extension := some (strL "mp4")
        file_type := none
        download_url := some (strL vu) } ] }

/-- The scenario listing endpoint: two records in January's window, one
in March's, nothing elsewhere, never a 401, single pages. -/
def scListServer : Date × Date → Option Nat → Nat → Page Meeting := fun w _ _ =>
  if w = (⟨2024, 1, 1⟩, ⟨2024, 1, 31⟩) then
    { status := 200
      meetings := [scMeeting "Standup A" ⟨2024, 1, 16⟩ "ua1" "uv1",
                   scMeeting "Standup B" ⟨2024, 1, 20⟩ "ua2" "uv2"]
      nextPageToken := none }
  else if w = (⟨2024, 3, 1⟩, ⟨2024, 3, 10⟩) then
    { status := 200
      meetings := [scMeeting "Retro C" ⟨2024, 3, 5⟩ "ua3" "uv3"]
      nextPageToken := none }
  else { status := 200, meetings := [], nextPageToken := none }

/-- The scenario asset endpoint: every video URL streams zero bytes,
every audio URL streams three bytes; never a 401. -/
def scDlServer : List Char → List Response := fun url =>
  if url = strL "uv1" ∨ url = strL "uv2" ∨ url = strL "uv3" then
    [{ status := 200, chunks := [], failAfter := none }]
  else
    [{ status := 200, chunks := [[1, 2, 3]], failAfter := none }]

/-- The scenario run of `main`. -/
def scRun : RunState × Option RunErr :=
  runMain scListServer scDlServer ⟨2024, 1, 15⟩ ⟨2024, 3, 10⟩ 4

/-! ### The claims -/

/-- C1, counterexample to the claim as stated: an invocation of
`download` that fails (the unconditional `RuntimeError` raised after the
401-triggered nested retry returned) can leave a file at the final
destination path, because the nested retry renamed its completed
download there. So "under any failure the final destination path remains
absent" is false for the unauthorized-status failure. -/
theorem C1_counterexample :
    (download [⟨401, [], none⟩, ⟨200, [[7]], none⟩] ⟨[], ['a']⟩ []).1 =
      DlResult.tokenExpired ∧
    ¬ (download [⟨401, [], none⟩, ⟨200, [[7]], none⟩] ⟨[], ['a']⟩ []).1 =
      DlResult.success ∧
    fsGet (download [⟨401, [], none⟩, ⟨200, [[7]], none⟩] ⟨[], ['a']⟩ []).2.1
      ⟨[], ['a']⟩ = some [7] := by
  refine ⟨rfl, by decide, rfl⟩

/-- C1, amended: starting from a state where the destination is absent,
a file is present at the final destination after `download` exactly when
the call returned success or raised the after-successful-retry
`RuntimeError`; and any file at the destination is the complete,
non-empty body of a fully consumed successful response — never a
partial, truncated or zero-size file. Under every other failure
(non-success status, mid-stream exception, zero bytes, exhausted
retries) the destination remains absent. -/
theorem C1_amended (oracle : List Response) (dest : FsPath) (fs : FS)
    (hd : fsGet fs dest = none) :
    (((download oracle dest fs).1 = DlResult.success ∨
        (download oracle dest fs).1 = DlResult.tokenExpired) ↔
      (fsGet (download oracle dest fs).2.1 dest).isSome = true) ∧
    (∀ c, fsGet (download oracle dest fs).2.1 dest = some c →
      ¬ c = [] ∧ ∃ r ∈ oracle, r.status < 400 ∧ r.failAfter = none ∧
        c = fullContent r) :=
  download_dest_safety oracle dest fs hd

/-- C1, witness: the amended theorem applied to a one-response oracle. -/
theorem C1_witness :
    fsGet ([] : FS) ⟨[], ['b']⟩ = none ∧
    (((download [⟨200, [[5]], none⟩] ⟨[], ['b']⟩ []).1 = DlResult.success ∨
        (download [⟨200, [[5]], none⟩] ⟨[], ['b']⟩ []).1 = DlResult.tokenExpired) ↔
      (fsGet (download [⟨200, [[5]], none⟩] ⟨[], ['b']⟩ []).2.1 ⟨[], ['b']⟩).isSome =
        true) :=
  ⟨rfl, (C1_amended [⟨200, [[5]], none⟩] ⟨[], ['b']⟩ [] rfl).1⟩

/-- C2, counterexample to the claim as stated: for the range
2024-01-15 .. 2024-01-20 the first (and only) window begins at
2024-01-01, the first day of the month containing the requested start —
not at the exact requested start 2024-01-15. -/
theorem C2_counterexample :
    (month_windows ⟨2024, 1, 15⟩ ⟨2024, 1, 20⟩).head? =
      some (⟨2024, 1, 1⟩, ⟨2024, 1, 20⟩) ∧
    ¬ ((⟨2024, 1, 1⟩ : Date) = ⟨2024, 1, 15⟩) := by
  refine ⟨rfl, by decide⟩

/-- C2, amended: for valid dates with start ≤ end, `month_windows`
returns a finite, chronologically ordered sequence of windows that
partitions the inclusive range from the FIRST DAY OF start's MONTH to
the exact requested end with no gaps and no overlaps (each window starts
the day after the previous one ends); every window except the last is a
full calendar month, and the last ends at the exact requested end. -/
theorem C2_amended (s e : Date) (hs : s.valid) (he : e.valid)
    (hle : dateLe s e = true) :
    (∃ w ws, month_windows s e = w :: ws ∧ w.1 = first_of_month s) ∧
    (∃ w', (month_windows s e).getLast? = some w' ∧ w'.2 = e) ∧
    List.Chain' (fun a b => b.1 = succDay a.2 ∧ dateLt a.2 b.1 = true)
      (month_windows s e) ∧
    (∀ w ∈ month_windows s e, dateLe w.1 w.2 = true) ∧
    (∀ w ∈ (month_windows s e).dropLast,
      w.1.day = 1 ∧ w.2 = ⟨w.1.year, w.1.month, daysInMonth w.1.year w.1.month⟩) :=
  month_windows_spec s e hs he hle

/-- C2, witness: the amended theorem applied to the specification's
scenario range 2024-01-15 .. 2024-03-10. -/
theorem C2_witness :
    (⟨2024, 1, 15⟩ : Date).valid ∧ (⟨2024, 3, 10⟩ : Date).valid ∧
    dateLe ⟨2024, 1, 15⟩ ⟨2024, 3, 10⟩ = true ∧
    (∀ w ∈ month_windows ⟨2024, 1, 15⟩ ⟨2024, 3, 10⟩, dateLe w.1 w.2 = true) :=
  ⟨by decide, by decide, by decide,
    (C2_amended ⟨2024, 1, 15⟩ ⟨2024, 3, 10⟩ (by decide) (by decide)
      (by decide)).2.2.2.1⟩

/-- C3, code bug: on the response sequence 401, 401, 200-with-content,
`download` issues a third attempt after the second consecutive
unauthorized status (the recursion is uncapped: `get_token` is called
twice and the third response's body is fetched and renamed into place),
and the call still raises the unconditional `RuntimeError`
(`tokenExpired`) even though the retried download succeeded — instead of
capping at one retry, surfacing `AuthError` on the second 401, and
returning success without raising after a successful retry. -/
theorem C3_code_bug :
    (download [⟨401, [], none⟩, ⟨401, [], none⟩, ⟨200, [[9]], none⟩]
        ⟨[], ['c']⟩ []).1 = DlResult.tokenExpired ∧
    (download [⟨401, [], none⟩, ⟨401, [], none⟩, ⟨200, [[9]], none⟩]
        ⟨[], ['c']⟩ []).2.2 = 2 ∧
    fsGet (download [⟨401, [], none⟩, ⟨401, [], none⟩, ⟨200, [[9]], none⟩]
        ⟨[], ['c']⟩ []).2.1 ⟨[], ['c']⟩ = some [9] := by
  refine ⟨rfl, rfl, rfl⟩

/-- C4, counterexample to the claim as stated: on the scenario run the
whole process aborts with the zero-byte error of the very first video
asset (`download`'s exception is uncaught in `main`), so only one folder
was created — not three — and the run does not complete successfully. -/
theorem C4_counterexample :
    scRun.2 = some (RunErr.dl DlResult.emptyError) ∧
    scRun.1.folders.length = 1 ∧
    ¬ scRun.1.folders.length = 3 := by
  refine ⟨rfl, rfl, by decide⟩

/-- C4, amended: the scenario run is fail-fast, not continue-on-error:
it creates the first record's folder, writes its audio file (three
bytes), then the first zero-byte video attempt raises the zero-byte
error, which propagates out of `main` and aborts the run before any
further record is processed; no video file is left at a temporary or
final path. -/
theorem C4_amended :
    scRun.2 = some (RunErr.dl DlResult.emptyError) ∧
    scRun.1.folders = [strL "xRecording - Standup A - 2024-01-16"] ∧
    scRun.1.fs = [(⟨strL "xRecording - Standup A - 2024-01-16",
      strL "audio_only.m4a"⟩, [1, 2, 3])] ∧
    scRun.1.meetingsStarted = 1 := by
  refine ⟨rfl, rfl, rfl, rfl⟩

/-- C5: a stream that completes with zero bytes makes `download` delete
the temp file and fail with the zero-byte error, leaving no file at the
temporary path nor at the (previously absent) final destination path. -/
theorem C5_zero_byte (r : Response) (rest : List Response) (dest : FsPath)
    (fs : FS) (h401 : ¬ r.status = 401) (hok : ¬ 400 ≤ r.status)
    (hfa : r.failAfter = none) (hempty : fullContent r = [])
    (hdest : fsGet fs dest = none) :
    (download (r :: rest) dest fs).1 = DlResult.emptyError ∧
    fsGet (download (r :: rest) dest fs).2.1 (tmpPath dest) = none ∧
    fsGet (download (r :: rest) dest fs).2.1 dest = none := by
  obtain ⟨h1, h2, h3⟩ := download_zero_bytes r rest dest fs h401 hok hfa hempty
  exact ⟨h1, h2, h3.trans hdest⟩

/-- C5, witness: the zero-byte theorem applied to a concrete empty
stream. -/
theorem C5_witness :
    (¬ (⟨200, [], none⟩ : Response).status = 401) ∧
    (download [⟨200, [], none⟩] ⟨[], ['d']⟩ []).1 = DlResult.emptyError := by
  refine ⟨by decide, ?_⟩
  exact (C5_zero_byte ⟨200, [], none⟩ [] ⟨[], ['d']⟩ [] (by decide) (by decide)
    rfl rfl rfl).1

/-- C6: `next_unique_path` always returns a path that does not currently
exist — a free input path unchanged, otherwise the first free candidate
numbered from 2 — and against the existing set
`{rec.mp4, rec-2.mp4, rec-3.mp4}` it returns `rec-4.mp4`, so an
existing file is never overwritten. -/
theorem C6_next_unique_path :
    (∀ (fs : FS) (dir stem sfx : List Char),
      ∃ p, next_unique_path fs dir stem sfx = some p ∧ fsGet fs p = none ∧
        (fsGet fs ⟨dir, stem ++ sfx⟩ = none → p = ⟨dir, stem ++ sfx⟩) ∧
        ((fsGet fs ⟨dir, stem ++ sfx⟩).isSome = true →
          ∃ k, 2 ≤ k ∧ p = candPath dir stem sfx k ∧
            ∀ j, 2 ≤ j → j < k →
              (fsGet fs (candPath dir stem sfx j)).isSome = true)) ∧
    next_unique_path
      [(⟨[], strL "rec.mp4"⟩, [0]), (⟨[], strL "rec-2.mp4"⟩, [0]),
       (⟨[], strL "rec-3.mp4"⟩, [0])]
      [] (strL "rec") (strL ".mp4") = some ⟨[], strL "rec-4.mp4"⟩ := by
  refine ⟨next_unique_path_spec, ?_⟩
  rfl

/-- C7: the sanitizer's output contains no illegal character (each was
replaced by `'_'`), every whitespace character in it is the single
space with no two adjacent (runs collapsed), and its length is at most
150. -/
theorem C7_sanitize (name : List Char) :
    (∀ c ∈ sanitize name 150, isIllegal c = false) ∧
    (sanitize name 150).length ≤ 150 ∧
    (∀ c ∈ sanitize name 150, isSpaceChar c = true → c = ' ') ∧
    List.Chain' (fun a c => ¬(isSpaceChar a = true ∧ isSpaceChar c = true))
      (sanitize name 150) := by
  obtain ⟨h1, h2, h3, h4⟩ := sanitize_props name 150
  exact ⟨h1, h2, h3, h4⟩

/-- C7, witness: the sanitizer theorem applied to a concrete title. -/
theorem C7_witness :
    (sanitize (strL "a?b  c") 150).length ≤ 150 :=
  (C7_sanitize (strL "a?b  c")).2.1

/-- C8: on a 401 the paginator retries the same page (same cursor) with a
fresh token exactly once; a second consecutive 401 on that page is fatal
for the window with no further request; any other non-success response
aborts listing after its single request; a page fetch never issues more
than two requests, so the paginator never loops on one page. -/
theorem C8_pagination {α : Type} (server : Option Nat → Nat → Page α)
    (n tok : Nat) (cur : Option Nat) :
    ((server cur tok).status = 401 →
      (fetchPage server cur tok).2.2 = [⟨cur, tok⟩, ⟨cur, tok + 1⟩] ∧
      (fetchPage server cur tok).1 = server cur (tok + 1)) ∧
    ((server cur tok).status = 401 → (server cur (tok + 1)).status = 401 →
      list_records server (n + 1) tok cur =
        ([], ListResult.httpError 401, [⟨cur, tok⟩, ⟨cur, tok + 1⟩])) ∧
    (¬ (server cur tok).status = 401 → 400 ≤ (server cur tok).status →
      list_records server (n + 1) tok cur =
        ([], ListResult.httpError (server cur tok).status, [⟨cur, tok⟩])) ∧
    (fetchPage server cur tok).2.2.length ≤ 2 := by
  refine ⟨?_, ?_, ?_, ?_⟩
  · intro h
    unfold fetchPage
    rw [if_pos h]
    exact ⟨rfl, rfl⟩
  · intro h1 h2
    rw [list_records]
    dsimp only
    unfold fetchPage
    rw [if_pos h1]
    dsimp only
    rw [if_pos (by omega : 400 ≤ (server cur (tok + 1)).status), h2]
  · intro h1 h2
    rw [list_records]
    dsimp only
    unfold fetchPage
    rw [if_neg h1]
    dsimp only
    rw [if_pos h2]
  · unfold fetchPage
    dsimp only
    split
    · exact Nat.le_refl 2
    · exact Nat.le_succ 1

/-- C8, witness: the paginator theorem applied to a server that always
answers 401 — two requests on the same cursor, then the fatal error. -/
theorem C8_witness :
    ((fun (_ : Option Nat) (_ : Nat) =>
        ({ status := 401, meetings := [], nextPageToken := none } : Page Nat))
      none 1).status = 401 ∧
    list_records
      (fun (_ : Option Nat) (_ : Nat) =>
        ({ status := 401, meetings := [], nextPageToken := none } : Page Nat))
      1 1 none = ([], ListResult.httpError 401, [⟨none, 1⟩, ⟨none, 2⟩]) :=
  ⟨rfl, (C8_pagination _ 0 1 none).2.1 rfl rfl⟩

/-- C9, counterexample to the claim as stated: for the reversed range
2024-01-15 .. 2024-01-10 (end < start) `month_windows` does not fail
with any error — it returns an ordinary, even non-empty, window list. -/
theorem C9_counterexample :
    month_windows ⟨2024, 1, 15⟩ ⟨2024, 1, 10⟩ =
      [(⟨2024, 1, 1⟩, ⟨2024, 1, 10⟩)] := rfl

/-- C9, amended: the planner performs no range validation and raises no
`InvalidRangeError` (it is a total generator). For end < start it
returns the single window (first of start's month, end) when that first
day is not after end, and the empty sequence otherwise. -/
theorem C9_amended (s e : Date) (hs : s.valid) (he : e.valid)
    (hlt : dateLt e s = true) :
    month_windows s e =
      if dateLe (first_of_month s) e = true then [(first_of_month s, e)]
      else [] :=
  month_windows_rev s e hs he hlt

/-- C9, witness: the amended theorem applied to the reversed range
2024-01-15 .. 2024-01-10. -/
theorem C9_witness :
    dateLt ⟨2024, 1, 10⟩ ⟨2024, 1, 15⟩ = true ∧
    month_windows ⟨2024, 1, 15⟩ ⟨2024, 1, 10⟩ =
      (if dateLe (first_of_month ⟨2024, 1, 15⟩) ⟨2024, 1, 10⟩ = true
        then [(first_of_month ⟨2024, 1, 15⟩, ⟨2024, 1, 10⟩)] else []) :=
  ⟨by decide, C9_amended ⟨2024, 1, 15⟩ ⟨2024, 1, 10⟩ (by decide) (by decide)
    (by decide)⟩

/-- C10: for every record, `main` acquires exactly one fresh credential
before that record's downloads and starts every download of the record
with that fresh credential — which differs from the pagination
credential; consequently, in a run where no credential is ever reported
invalid, identity-provider calls are exactly one plus the number of
records processed (linear growth). -/
theorem C10_fresh_token_per_record :
    (∀ (dl : List Char → List Response) (st : RunState) (m : Meeting),
      (∀ url r, r ∈ dl url → ¬ r.status = 401) →
      (processMeeting dl st m).1.gen = st.gen + 1 ∧
      (∀ e ∈ (processMeeting dl st m).1.dlTrace,
        e ∈ st.dlTrace ∨ e.2 = st.gen + 1) ∧
      (st.listTok ≤ st.gen →
        ∀ e ∈ (processMeeting dl st m).1.dlTrace,
          e ∈ st.dlTrace ∨ ¬ e.2 = st.listTok)) ∧
    (∀ ls dl startD endD pageFuel,
      (∀ w cur tok, ¬ (ls w cur tok).status = 401) →
      (∀ url r, r ∈ dl url → ¬ r.status = 401) →
      (runMain ls dl startD endD pageFuel).1.gen =
        1 + (runMain ls dl startD endD pageFuel).1.meetingsStarted) := by
  constructor
  · intro dl st m h
    obtain ⟨h1, h2, h3, h4⟩ := processMeeting_no401 dl st m h
    refine ⟨h1, h4, ?_⟩
    intro hle e he
    rcases h4 e he with he' | he'
    · exact Or.inl he'
    · right
      rw [he']
      omega
  · intro ls dl startD endD pageFuel hls hdl
    exact runMain_no401 ls dl startD endD pageFuel hls hdl

/-- C10, witness: the run-level count applied to an empty remote. -/
theorem C10_witness :
    (runMain (fun _ _ _ => { status := 200, meetings := [], nextPageToken := none })
        (fun _ => []) ⟨2024, 1, 1⟩ ⟨2024, 1, 31⟩ 1).1.gen =
      1 + (runMain (fun _ _ _ => { status := 200, meetings := [], nextPageToken := none })
        (fun _ => []) ⟨2024, 1, 1⟩ ⟨2024, 1, 31⟩ 1).1.meetingsStarted :=
  C10_fresh_token_per_record.2 _ _ _ _ 1 (fun w cur tok => by decide)
    (fun url r hr => absurd hr (List.not_mem_nil r))

end Zoom
